import Mathlib

/-!
Verification of the agentbox session-orchestration core.

This file shallowly embeds the parts of the repository that carry the
spec's invariants:

* the context-compaction pipeline (`countContextChars`, `trimToLimit`,
  `compactContext` from the pi-agent-core agent module),
* the session-runtime drain loop (`prompt` / `_drainQueue` /
  `_runPrompt` of the `AgentBox` and `Rex` singletons), modelled as a
  state machine stepped at the `await` boundaries of the JS event loop,
* session persistence (`saveSession`/`loadSession`/`clearSession` and
  `saveCheckpoint`/`loadCheckpoint`/`clearCheckpoint`),
* the per-turn inactivity watchdog, and
* Telegram message chunking (`splitMessage`).

Machine strings are modelled as Lean `String`s (for message payloads)
or `List Char` (for the chunking algorithm, which indexes characters);
JS numbers that only ever hold non-negative integers are `Nat`.
External effects (the summarization network call, the filesystem, the
engine event stream) are passed in as explicit values describing their
outcome, as the code only branches on those outcomes.
-/

namespace Agentbox

/-! ### Message model

The pi-agent-core message shape, as traversed (duck-typed) by
`countContextChars` and `compactContext`: a message's `content` is
either a plain string or an array of parts; a part may carry `text`,
`thinking` or `partialJson` string fields, and parts tagged
`tool_use` / `tool_result` additionally carry serialized tool input
resp. a tool-result payload (a string, or an array of items each with
an optional `text` field). -/

/-- Item of a tool-result content array (JS objects with an optional `text`). -/
structure ResultItem where
  text : Option String
deriving DecidableEq

/-- Payload of a `tool_result` part: either a bare string or an array of items. -/
inductive ToolContent where
  | str (s : String)
  | items (l : List ResultItem)
deriving DecidableEq

/-- One element of a message's `content` array.  `ctype` models the JS `type`
tag; `input` models the already-serialized `JSON.stringify(c.input)` of a
tool call (`none` when `c.input` is absent/falsy); `rcontent` models the
`content` field of a tool result. -/
structure Part where
  text : Option String := none
  thinking : Option String := none
  partialJson : Option String := none
  ctype : Option String := none
  input : Option String := none
  rcontent : Option ToolContent := none
deriving DecidableEq

/-- A message's `content`: JS string or array of parts. -/
inductive MsgContent where
  | str (s : String)
  | parts (l : List Part)
deriving DecidableEq

/-- An agent message, as stored in `agent.state.messages`. -/
structure AgentMessage where
  role : String
  content : MsgContent
deriving DecidableEq

/-- Length of an optional string field, 0 when absent. -/
def optLen : Option String → Nat
  | some s => s.length
  | none => 0

/-- Character count of a tool-result payload, as summed by
`countContextChars`: array items contribute their `text` fields, a bare
string contributes its own length. -/
def toolResultPayloadChars : ToolContent → Nat
  | .str s => s.length
  | .items l => (l.map (fun r => optLen r.text)).sum

/-- Character count that `countContextChars` attributes to one content part:
`text` + `thinking` + `partialJson`, plus serialized tool-call input for
`tool_use` parts, plus the tool-result payload for `tool_result` parts. -/
def partChars (c : Part) : Nat :=
  optLen c.text + optLen c.thinking + optLen c.partialJson
    + (if c.ctype = some "tool_use" then optLen c.input else 0)
    + (if c.ctype = some "tool_result" then
        match c.rcontent with
        | some tc => toolResultPayloadChars tc
        | none => 0
      else 0)

/-- Character count of one message: its string content, or the sum over its
parts. -/
def msgChars (m : AgentMessage) : Nat :=
  match m.content with
  | .str s => s.length
  | .parts l => (l.map partChars).sum

/-- Count all text content in the message history, including tool results
(the compaction measurement of the pi-agent-core agent module). -/
def countContextChars (messages : List AgentMessage) : Nat :=
  (messages.map msgChars).sum

/-! Spec-side decomposition of the measurement, used to show that tool-call
arguments and tool-result payloads are included in the total (the spec
calls out tool results as "must be counted, not skipped"). -/

/-- Plain text-bearing characters of a part (text, thinking, partial JSON). -/
def partPlainChars (c : Part) : Nat :=
  optLen c.text + optLen c.thinking + optLen c.partialJson

/-- Serialized tool-call argument characters of a part. -/
def partToolUseChars (c : Part) : Nat :=
  if c.ctype = some "tool_use" then optLen c.input else 0

/-- Tool-result payload characters of a part. -/
def partToolResultChars (c : Part) : Nat :=
  if c.ctype = some "tool_result" then
    match c.rcontent with
    | some tc => toolResultPayloadChars tc
    | none => 0
  else 0

/-- Plain text-bearing characters of one message. -/
def msgPlainChars (m : AgentMessage) : Nat :=
  match m.content with
  | .str s => s.length
  | .parts l => (l.map partPlainChars).sum

/-- Serialized tool-call argument characters of one message. -/
def msgToolUseChars (m : AgentMessage) : Nat :=
  match m.content with
  | .str _ => 0
  | .parts l => (l.map partToolUseChars).sum

/-- Tool-result payload characters of one message. -/
def msgToolResultChars (m : AgentMessage) : Nat :=
  match m.content with
  | .str _ => 0
  | .parts l => (l.map partToolResultChars).sum

/-- Total plain text-bearing characters of a history. -/
def plainChars (messages : List AgentMessage) : Nat :=
  (messages.map msgPlainChars).sum

/-- Total serialized tool-call argument characters of a history. -/
def toolUseChars (messages : List AgentMessage) : Nat :=
  (messages.map msgToolUseChars).sum

/-- Total tool-result payload characters of a history. -/
def toolResultChars (messages : List AgentMessage) : Nat :=
  (messages.map msgToolResultChars).sum

/-! ### Compaction -/

/-- Character budget: compaction triggers when the history exceeds this. -/
def MAX_CONTEXT_CHARS : Nat := 400000

/-- Marker prepended to compaction summary messages. -/
def COMPACTION_CODE : String := "[CONTEXT_COMPACTED]"

/-- Safe fallback when AI summarization fails: drop oldest messages until
under the limit, keeping at least the last message. -/
def trimToLimit : List AgentMessage → List AgentMessage
  | [] => []
  | m :: rest =>
    if countContextChars (m :: rest) > MAX_CONTEXT_CHARS ∧ rest ≠ [] then
      trimToLimit rest
    else m :: rest

/-- Outcome of the auxiliary Gemini summarization call (a network call,
modelled by its observable result). -/
inductive SummaryOutcome where
  | ok (summary : String)
  | failed (err : String)
deriving DecidableEq

/-- The single summary message compaction writes back on success. -/
def summaryMessage (summary : String) : AgentMessage :=
  { role := "user", content := .str (COMPACTION_CODE ++ "\n\n" ++ summary) }

/-- Context compaction: a no-op under budget; otherwise replace the whole
history with one summary message when a key is configured and the
summarization call succeeds, and fall back to trimming when no key is
configured or the call fails.  The returned list is also what the code
writes back into `agent.state.messages` (the stored history) in the
compaction branches, so it is the stored history after the call. -/
def compactContext (messages : List AgentMessage) (openrouterKey : Option String)
    (summarize : SummaryOutcome) : List AgentMessage :=
  if countContextChars messages ≤ MAX_CONTEXT_CHARS then messages
  else
    match openrouterKey with
    | none => trimToLimit messages
    | some _ =>
      match summarize with
      | .failed _ => trimToLimit messages
      | .ok summary => [summaryMessage summary]

/-! ### Session runtime drain loop

`prompt(content, source)` pushes onto `this.queue` and, when `this.busy`
is false, synchronously enters `_drainQueue`, which re-checks the guard,
sets `busy`, shifts the head of the queue and starts `_runPrompt` (the
Engine Adapter call) for it.  JS is single-threaded, so state changes
only interleave at `await` points; we model the runtime as a state
machine whose steps are the atomic event-loop segments: an arriving
`prompt()` call, and the resolution (success or failure) of the
in-flight `_runPrompt`.  The `active` field instruments which requests
currently have an Engine Adapter call in flight; `executed` records
completed turns in completion order; `events` records error events
delivered to subscribers. -/

/-- A queued request: `{content, source}`. -/
structure Req where
  content : String
  source : String
deriving DecidableEq

/-- How the in-flight Engine Adapter call resolves. -/
inductive TurnOutcome where
  | ok
  | failed (msg : String)
deriving DecidableEq

/-- Atomic event-loop steps affecting the runtime. -/
inductive RuntimeEvent where
  | arrive (r : Req)
  | finish (o : TurnOutcome)
deriving DecidableEq

/-- Events delivered to subscribers that we track (error events). -/
inductive Emitted where
  | errorEvent (msg : String)
deriving DecidableEq

/-- State of the subprocess-based `AgentBox` singleton. -/
structure BoxState where
  queue : List Req
  busy : Bool
  active : List Req
  executed : List Req
  events : List Emitted
deriving DecidableEq

/-- Fresh runtime state. -/
def initState : BoxState := ⟨[], false, [], [], []⟩

/-- Effect of one `prompt(content, source)` call: push onto the queue; if
not busy, `_drainQueue` passes its guard, sets `busy`, shifts the head
and starts its Engine Adapter call (all synchronous up to the first
`await`). -/
def promptStep (s : BoxState) (r : Req) : BoxState :=
  let q := s.queue ++ [r]
  if s.busy then { s with queue := q }
  else
    match q with
    | [] => { s with queue := [] }
    | h :: t => { s with queue := t, busy := true, active := s.active ++ [h] }

/-- Effect of the in-flight turn resolving in the subprocess `AgentBox`:
`_runPrompt` catches any failure and emits an error event, so the drain
loop always continues — it records the finished turn, then either starts
the next queued request or clears `busy`. -/
def finishStep (s : BoxState) (o : TurnOutcome) : BoxState :=
  match s.active with
  | [] => s
  | a :: rest =>
    let evs := match o with
      | .ok => s.events
      | .failed m => s.events ++ [.errorEvent m]
    match s.queue with
    | [] =>
        { s with active := rest, executed := s.executed ++ [a],
                 events := evs, busy := false }
    | h :: t =>
        { s with active := rest ++ [h], executed := s.executed ++ [a],
                 events := evs, queue := t, busy := true }

/-- One step of the subprocess runtime. -/
def step (s : BoxState) : RuntimeEvent → BoxState
  | .arrive r => promptStep s r
  | .finish o => finishStep s o

/-- Run a whole trace from the fresh state. -/
def run (tr : List RuntimeEvent) : BoxState := tr.foldl step initState

/-- Requests of a trace, in arrival order. -/
def arrivals (tr : List RuntimeEvent) : List Req :=
  tr.filterMap (fun e => match e with | .arrive r => some r | .finish _ => none)

/-- State of the legacy `Rex` (and pi-agent-core `AgentBox`) singleton,
whose `_drainQueue` has no try/catch around `_runPrompt`: the extra
`crashed` flag records that a rejection escaped the drain loop. -/
structure RexState where
  queue : List Req
  busy : Bool
  active : List Req
  executed : List Req
  events : List Emitted
  crashed : Bool
deriving DecidableEq

/-- Fresh legacy-runtime state. -/
def rexInit : RexState := ⟨[], false, [], [], [], false⟩

/-- `Rex.prompt`: same queue/busy logic as the subprocess runtime. -/
def rexPrompt (s : RexState) (r : Req) : RexState :=
  let q := s.queue ++ [r]
  if s.busy then { s with queue := q }
  else
    match q with
    | [] => { s with queue := [] }
    | h :: t => { s with queue := t, busy := true, active := s.active ++ [h] }

/-- Resolution of the in-flight turn in `Rex`: on success the loop
continues as usual, but on failure `_runPrompt` rejects and the
rejection propagates out of `_drainQueue` before `this.busy = false`
runs — no error event is emitted, `busy` stays set, the queue is left
untouched and the loop is gone. -/
def rexFinish (s : RexState) (o : TurnOutcome) : RexState :=
  match s.active with
  | [] => s
  | a :: rest =>
    match o with
    | .ok =>
      match s.queue with
      | [] => { s with active := rest, executed := s.executed ++ [a], busy := false }
      | h :: t =>
          { s with active := rest ++ [h], executed := s.executed ++ [a],
                   queue := t, busy := true }
    | .failed _ => { s with active := rest, crashed := true }

/-- One step of the legacy runtime. -/
def rexStep (s : RexState) : RuntimeEvent → RexState
  | .arrive r => rexPrompt s r
  | .finish o => rexFinish s o

/-- Run a whole trace of the legacy runtime from the fresh state. -/
def rexRun (tr : List RuntimeEvent) : RexState := tr.foldl rexStep rexInit

/-! ### Session persistence

`saveSession`/`loadSession`/`clearSession` persist a session-id record
to `~/.agentbox/<agent>/session.json`; `saveCheckpoint`/`loadCheckpoint`
/`clearCheckpoint` persist the raw message list with a staleness window.
The file is modelled as an explicit state: absent, unreadable, holding
unparseable JSON, or holding a valid record (JSON serialization is done
by the host runtime and round-trips the record; the repository code only
branches on these four outcomes, catching every failure).  `load`
functions return `none` on every non-valid outcome, mirroring the
`try/catch` that swallows read and parse errors. -/

/-- Possible states of a persisted file, as distinguished by the code. -/
inductive FileState (α : Type) where
  | missing
  | unreadable
  | invalidJson (raw : String)
  | valid (data : α)
deriving DecidableEq

/-- The persisted session record. -/
structure SessionData where
  sessionId : String
  savedAt : Nat
deriving DecidableEq

/-- `saveSession`: write the record (overwrites whatever was there). -/
def saveSession (sessionId : String) (now : Nat) (_fs : FileState SessionData) :
    FileState SessionData :=
  .valid { sessionId := sessionId, savedAt := now }

/-- `loadSession`: read and parse the file, returning the stored session
id; any failure (missing, unreadable, bad JSON) is caught and yields
`none`. -/
def loadSession : FileState SessionData → Option String
  | .valid d => some d.sessionId
  | _ => none

/-- `clearSession`: unlink the file (a missing file is fine). -/
def clearSession (_fs : FileState SessionData) : FileState SessionData := .missing

/-- Max age of a checkpoint before it is treated as stale (2 hours). -/
def MAX_CHECKPOINT_AGE_MS : Nat := 2 * 60 * 60 * 1000

/-- The persisted message-history checkpoint record. -/
structure Checkpoint where
  savedAt : Nat
  messages : List AgentMessage
deriving DecidableEq

/-- `saveCheckpoint`: write the record, except that an empty message list
is not written at all. -/
def saveCheckpoint (messages : List AgentMessage) (now : Nat)
    (fs : FileState Checkpoint) : FileState Checkpoint :=
  if messages.length = 0 then fs
  else .valid { savedAt := now, messages := messages }

/-- `clearCheckpoint`: unlink the file. -/
def clearCheckpoint (_fs : FileState Checkpoint) : FileState Checkpoint := .missing

/-- `loadCheckpoint`: read and parse the file; a stale record is
discarded (the file is cleared) and yields `none`; any read/parse
failure is caught and yields `none`.  Returns the result together with
the file state afterwards. -/
def loadCheckpoint (now : Nat) :
    FileState Checkpoint → Option (List AgentMessage) × FileState Checkpoint
  | .valid cp =>
    if now - cp.savedAt > MAX_CHECKPOINT_AGE_MS then (none, .missing)
    else (some cp.messages, .valid cp)
  | fs => (none, fs)

/-! ### Inactivity watchdog

A single `setTimeout` timer is armed when the turn starts and re-armed
(`clearTimeout` + `setTimeout`) on every event observed from the Engine
Adapter; the `finally` block clears it when the event stream ends.  We
model a completed turn by its start instant `t0` and the (ascending)
instants of the observed events, the last of which ends the stream, and
compute the instants at which the timeout handler runs: armed at `last`,
the one-shot timer fires at `last + timeout` exactly when the next event
arrives strictly later than that, and is not re-armed until that next
event. -/

/-- Watchdog inactivity timeout of the subprocess `AgentBox` (10 min). -/
def INACTIVITY_TIMEOUT_MS : Nat := 10 * 60 * 1000

/-- Instants at which the watchdog handler runs, for a timer last armed at
`last` and subsequent event instants `ts`. -/
def watchdogFireTimes (timeout : Nat) : Nat → List Nat → List Nat
  | _, [] => []
  | last, t :: rest =>
    (if last + timeout < t then [last + timeout] else []) ++
      watchdogFireTimes timeout t rest

/-- Number of watchdog firings over a completed turn. -/
def watchdogFires (timeout t0 : Nat) (ts : List Nat) : Nat :=
  (watchdogFireTimes timeout t0 ts).length

/-- Number of silent gaps exceeding the timeout between consecutive
instants of `t0 :: ts` (the spec-side count of over-long gaps). -/
def gapViolations (timeout t0 : Nat) (ts : List Nat) : Nat :=
  ((t0 :: ts).zip ts).countP (fun p => decide (p.1 + timeout < p.2))

/-- Observable per-turn effects of the subprocess watchdog handler: the
handler body only logs and emits a timeout error event to subscribers —
it does not abort the subprocess (`abort()` is unimplemented in the
subprocess runtime and is not called by the handler). -/
structure TurnView where
  timeoutEvents : Nat
  aborted : Bool
deriving DecidableEq

/-- Run of the subprocess watchdog over one turn: one timeout error event
per firing, and no abort. -/
def runWatchdogSdk (t0 : Nat) (ts : List Nat) : TurnView :=
  { timeoutEvents := watchdogFires INACTIVITY_TIMEOUT_MS t0 ts, aborted := false }

/-! ### Telegram message chunking

`splitMessage` splits an outbound text into chunks of at most 4096
characters, preferring to cut at the last newline at or before the
limit, but falling back to a hard cut exactly at the limit when that
newline lies before half the limit; the remainder is `trimStart`-ed
before continuing.  Text is modelled as `List Char`; `lastNewlineLe`
models `text.lastIndexOf("\n", maxLen)` and the recursion carries an
explicit fuel (the initial text length suffices for any positive
limit, matching the JS loop, which always shortens the remainder). -/

/-- Telegram's hard cap on message text length. -/
def TELEGRAM_MAX_LENGTH : Nat := 4096

/-- ASCII whitespace trimmed by JS `String.prototype.trimStart` (the
payloads at issue are ASCII; further Unicode space classes are not
modelled). -/
def isJsSpace (c : Char) : Bool :=
  c == ' ' || c == '\t' || c == '\n' || c == '\r' || c == '\x0b' || c == '\x0c'

/-- Model of JS `trimStart`. -/
def trimStart : List Char → List Char
  | [] => []
  | c :: rest => if isJsSpace c then trimStart rest else c :: rest

/-- Model of `cs.lastIndexOf("\n", k)`: the greatest index `i ≤ k` with
`cs[i] = '\n'`, if any. -/
def lastNewlineLe : List Char → Nat → Option Nat
  | [], _ => none
  | c :: _, 0 => if c = '\n' then some 0 else none
  | c :: rest, k + 1 =>
    match lastNewlineLe rest k with
    | some i => some (i + 1)
    | none => if c = '\n' then some 0 else none

/-- Cut position chosen by one iteration of the splitting loop: the last
newline at or before the limit if it lies at or beyond half the limit,
else the limit itself (`split < maxLen * 0.5` is exactly
`2 * split < maxLen`). -/
def splitPos (r : List Char) (L : Nat) : Nat :=
  match lastNewlineLe r L with
  | some i => if 2 * i < L then L else i
  | none => L

/-- One iteration of the splitting loop on an over-long remainder: emit
the chunk before the cut position and continue with the trimmed
remainder. -/
def splitOnce (r : List Char) (L : Nat) : List Char × List Char :=
  (r.take (splitPos r L), trimStart (r.drop (splitPos r L)))

/-- The splitting loop, with explicit fuel. -/
def splitLoop (L : Nat) : Nat → List Char → List (List Char)
  | 0, _ => []
  | _ + 1, [] => []
  | fuel + 1, c :: cs =>
    if (c :: cs).length ≤ L then [c :: cs]
    else (splitOnce (c :: cs) L).1 :: splitLoop L fuel (splitOnce (c :: cs) L).2

/-- The splitting loop started with sufficient fuel. -/
def splitChunks (L : Nat) (r : List Char) : List (List Char) :=
  splitLoop L r.length r

/-- Split a text into chunks that fit within the length limit. -/
def splitMessage (text : List Char) (L : Nat) : List (List Char) :=
  if text.length ≤ L then [text] else splitChunks L text

/-! ### Concrete values used by witnesses and counterexamples -/

/-- A 400001-character string, one character over the compaction budget. -/
def bigStr : String := String.mk (List.replicate 400001 'a')

/-- A single message that by itself exceeds the compaction budget. -/
def bigMsg : AgentMessage := { role := "user", content := .str bigStr }

/-- A small message. -/
def smallMsg : AgentMessage := { role := "assistant", content := .str "done" }

/-- Sample requests from two different sources. -/
def reqA : Req := { content := "hello", source := "telegram:1" }

/-- Second sample request. -/
def reqB : Req := { content := "status?", source := "tui:local" }

/-- Over-limit text whose only newline sits at index 1 — inside the
4096-character window but before its halfway point. -/
def cexText : List Char := 'a' :: '\n' :: List.replicate 4095 'b'

/-! ## Lemmas: measurement -/

lemma countContextChars_nil : countContextChars [] = 0 := rfl

lemma countContextChars_cons (m : AgentMessage) (l : List AgentMessage) :
    countContextChars (m :: l) = msgChars m + countContextChars l := by
  simp [countContextChars]

lemma countContextChars_append (a b : List AgentMessage) :
    countContextChars (a ++ b) = countContextChars a + countContextChars b := by
  simp [countContextChars]

lemma partChars_decomp (c : Part) :
    partChars c = partPlainChars c + partToolUseChars c + partToolResultChars c := rfl

lemma msgChars_decomp (m : AgentMessage) :
    msgChars m = msgPlainChars m + msgToolUseChars m + msgToolResultChars m := by
  obtain ⟨role, content⟩ := m
  cases content with
  | str s => simp [msgChars, msgPlainChars, msgToolUseChars, msgToolResultChars]
  | parts l =>
    simp only [msgChars, msgPlainChars, msgToolUseChars, msgToolResultChars]
    induction l with
    | nil => simp
    | cons c cs ih => simp only [List.map_cons, List.sum_cons, partChars_decomp]; omega

lemma countContextChars_decomp (messages : List AgentMessage) :
    countContextChars messages
      = plainChars messages + toolUseChars messages + toolResultChars messages := by
  induction messages with
  | nil => rfl
  | cons m l ih =>
    simp only [countContextChars, plainChars, toolUseChars, toolResultChars,
      List.map_cons, List.sum_cons] at *
    rw [msgChars_decomp]
    omega

lemma msgChars_toolResultMsg (role s : String) :
    msgChars { role := role,
               content := .parts [{ ctype := some "tool_result",
                                    rcontent := some (.str s) }] } = s.length := by
  simp [msgChars, partChars, optLen, toolResultPayloadChars]

/-! ## Lemmas: trimming -/

lemma trimToLimit_suffix (msgs : List AgentMessage) :
    ∃ pre, msgs = pre ++ trimToLimit msgs := by
  induction msgs with
  | nil => exact ⟨[], rfl⟩
  | cons m rest ih =>
    by_cases h : countContextChars (m :: rest) > MAX_CONTEXT_CHARS ∧ rest ≠ []
    · obtain ⟨p, hp⟩ := ih
      refine ⟨m :: p, ?_⟩
      rw [trimToLimit, if_pos h]
      simpa using hp
    · exact ⟨[], by rw [trimToLimit, if_neg h]; rfl⟩

lemma trimToLimit_under_or_single (m : AgentMessage) (rest : List AgentMessage) :
    countContextChars (trimToLimit (m :: rest)) ≤ MAX_CONTEXT_CHARS ∨
      (trimToLimit (m :: rest)).length = 1 := by
  induction rest generalizing m with
  | nil =>
    right
    rw [trimToLimit, if_neg (by simp)]
    rfl
  | cons m2 rest2 ih =>
    by_cases h : countContextChars (m :: m2 :: rest2) > MAX_CONTEXT_CHARS ∧
        (m2 :: rest2) ≠ []
    · rw [trimToLimit, if_pos h]
      exact ih m2
    · rw [trimToLimit, if_neg h]
      left
      rcases not_and_or.mp h with h1 | h2
      · omega
      · simp at h2

lemma trimToLimit_fix (msgs : List AgentMessage)
    (h : countContextChars msgs ≤ MAX_CONTEXT_CHARS ∨ msgs.length ≤ 1) :
    trimToLimit msgs = msgs := by
  cases msgs with
  | nil => rfl
  | cons m rest =>
    rw [trimToLimit, if_neg]
    rintro ⟨h1, h2⟩
    rcases h with h | h
    · omega
    · simp at h
      exact h2 h

lemma trimToLimit_idem (msgs : List AgentMessage) :
    trimToLimit (trimToLimit msgs) = trimToLimit msgs := by
  cases msgs with
  | nil => rfl
  | cons m rest =>
    apply trimToLimit_fix
    rcases trimToLimit_under_or_single m rest with h | h
    · exact Or.inl h
    · exact Or.inr (by omega)

lemma trimToLimit_le (msgs : List AgentMessage) :
    (trimToLimit msgs).length ≤ msgs.length ∧
      countContextChars (trimToLimit msgs) ≤ countContextChars msgs := by
  obtain ⟨pre, hp⟩ := trimToLimit_suffix msgs
  have hl : msgs.length = pre.length + (trimToLimit msgs).length := by
    conv_lhs => rw [hp]
    simp
  have hc : countContextChars msgs
      = countContextChars pre + countContextChars (trimToLimit msgs) := by
    conv_lhs => rw [hp]
    rw [countContextChars_append]
  omega

lemma trimToLimit_minimal (msgs s : List AgentMessage)
    (hsuf : ∃ p, msgs = p ++ s) (hcontains : ∃ q, s = q ++ trimToLimit msgs)
    (hne : s ≠ trimToLimit msgs) :
    MAX_CONTEXT_CHARS < countContextChars s ∧ 1 < s.length := by
  induction msgs generalizing s with
  | nil =>
    obtain ⟨p, hp⟩ := hsuf
    have : s = [] := by
      rcases List.append_eq_nil.mp hp.symm with ⟨-, h⟩
      exact h
    exact absurd (this.trans rfl) hne
  | cons m rest ih =>
    by_cases h : countContextChars (m :: rest) > MAX_CONTEXT_CHARS ∧ rest ≠ []
    · have htrim : trimToLimit (m :: rest) = trimToLimit rest := by
        rw [trimToLimit, if_pos h]
      obtain ⟨p, hp⟩ := hsuf
      cases p with
      | nil =>
        simp at hp
        subst hp
        refine ⟨h.1, ?_⟩
        have : rest ≠ [] := h.2
        cases rest with
        | nil => exact absurd rfl this
        | cons _ _ => simp
      | cons x p' =>
        simp at hp
        obtain ⟨-, hp'⟩ := hp
        rw [htrim] at hcontains hne
        exact ih s ⟨p', hp'⟩ hcontains hne
    · have htrim : trimToLimit (m :: rest) = m :: rest := by
        rw [trimToLimit, if_neg h]
      rw [htrim] at hcontains hne
      obtain ⟨p, hp⟩ := hsuf
      obtain ⟨q, hq⟩ := hcontains
      have hlen : (m :: rest).length = p.length + s.length := by
        rw [hp]; simp
      have hlen2 : s.length = q.length + (m :: rest).length := by
        rw [hq]; simp
      have : p.length = 0 := by omega
      have hp0 : p = [] := List.length_eq_zero.mp this
      subst hp0
      simp at hp
      exact absurd hp (fun hh => hne hh.symm)

/-! ## Lemmas: compaction unfolding and concrete measurements -/

lemma compactContext_under (msgs : List AgentMessage) (key : Option String)
    (o : SummaryOutcome) (h : countContextChars msgs ≤ MAX_CONTEXT_CHARS) :
    compactContext msgs key o = msgs := by
  simp only [compactContext]
  rw [if_pos h]

lemma compactContext_over_none (msgs : List AgentMessage) (o : SummaryOutcome)
    (h : MAX_CONTEXT_CHARS < countContextChars msgs) :
    compactContext msgs none o = trimToLimit msgs := by
  simp only [compactContext]
  rw [if_neg (by omega)]

lemma compactContext_over_failed (msgs : List AgentMessage) (k e : String)
    (h : MAX_CONTEXT_CHARS < countContextChars msgs) :
    compactContext msgs (some k) (.failed e) = trimToLimit msgs := by
  simp only [compactContext]
  rw [if_neg (by omega)]

lemma compactContext_over_ok (msgs : List AgentMessage) (k s : String)
    (h : MAX_CONTEXT_CHARS < countContextChars msgs) :
    compactContext msgs (some k) (.ok s) = [summaryMessage s] := by
  simp only [compactContext]
  rw [if_neg (by omega)]

lemma length_mk (l : List Char) : (String.mk l).length = l.length := rfl

lemma bigStr_length : bigStr.length = 400001 := by
  rw [bigStr, length_mk, List.length_replicate]

lemma countContextChars_bigMsg : countContextChars [bigMsg] = 400001 := by
  simp [countContextChars, msgChars, bigMsg, bigStr_length]

lemma countContextChars_smallMsg : countContextChars [smallMsg] = 4 := rfl

lemma countContextChars_big_small :
    countContextChars [bigMsg, smallMsg] = 400005 := by
  have h := countContextChars_append [bigMsg] [smallMsg]
  simp only [List.cons_append, List.nil_append] at h
  rw [h, countContextChars_bigMsg, countContextChars_smallMsg]

lemma trimToLimit_big_small : trimToLimit [bigMsg, smallMsg] = [smallMsg] := by
  rw [trimToLimit, if_pos]
  · exact trimToLimit_fix [smallMsg] (Or.inr (by rfl))
  · refine ⟨?_, by simp⟩
    rw [countContextChars_big_small]
    norm_num [MAX_CONTEXT_CHARS]

/-! ## Claim theorems: measurement and compaction -/

/-- C3: the compaction measurement `countContextChars` totals every
text-bearing part of every message: it decomposes exactly into plain text
characters (text, thinking, partial JSON), serialized tool-call argument
characters, and tool-result payload characters; it is additive over
messages; and a `tool_result` part with payload `s` always contributes
exactly `s.length` to the total — tool results are counted, never
skipped. -/
theorem countContextChars_counts_tool_results :
    (∀ messages : List AgentMessage,
      countContextChars messages
        = plainChars messages + toolUseChars messages + toolResultChars messages) ∧
    (∀ (messages : List AgentMessage) (m : AgentMessage),
      countContextChars (messages ++ [m]) = countContextChars messages + msgChars m) ∧
    (∀ (messages : List AgentMessage) (role s : String),
      countContextChars (messages ++
          [{ role := role,
             content := .parts [{ ctype := some "tool_result",
                                  rcontent := some (.str s) }] }])
        = countContextChars messages + s.length) := by
  refine ⟨countContextChars_decomp, ?_, ?_⟩
  · intro messages m
    rw [countContextChars_append, countContextChars_cons, countContextChars_nil]
    omega
  · intro messages role s
    rw [countContextChars_append, countContextChars_cons, countContextChars_nil,
      msgChars_toolResultMsg]
    omega

/-- C4 counterexample: a history consisting of one message of 400001
characters exceeds the 400000-character budget, yet a `compactContext`
call in the trim-fallback configuration returns it unchanged, still over
budget — a single call does not always yield an under-budget history. -/
theorem compaction_budget_cex :
    MAX_CONTEXT_CHARS < countContextChars [bigMsg] ∧
    compactContext [bigMsg] none (.failed "network down") = [bigMsg] ∧
    MAX_CONTEXT_CHARS <
      countContextChars (compactContext [bigMsg] none (.failed "network down")) := by
  have hover : MAX_CONTEXT_CHARS < countContextChars [bigMsg] := by
    rw [countContextChars_bigMsg]
    norm_num [MAX_CONTEXT_CHARS]
  have heq : compactContext [bigMsg] none (.failed "network down") = [bigMsg] := by
    rw [compactContext_over_none _ _ hover]
    exact trimToLimit_fix [bigMsg] (Or.inr (by rfl))
  exact ⟨hover, heq, by rw [heq]; exact hover⟩

/-- C4 amended: an under-budget history is returned unchanged; a single
`compactContext` call on an over-budget history yields a stored history
that is under budget or consists of exactly one message (the sole
surviving message of the trim fallback, or the summary message, may
itself still exceed the budget); a second immediate call on a result
that is under budget is a no-op returning it unchanged; and in the
trim-fallback configuration a second call is always a no-op. -/
theorem compactContext_budget_spec :
    ∀ (msgs : List AgentMessage) (key : Option String) (o o' : SummaryOutcome),
      (countContextChars msgs ≤ MAX_CONTEXT_CHARS → compactContext msgs key o = msgs) ∧
      (countContextChars (compactContext msgs key o) ≤ MAX_CONTEXT_CHARS ∨
        (compactContext msgs key o).length = 1) ∧
      (countContextChars (compactContext msgs key o) ≤ MAX_CONTEXT_CHARS →
        compactContext (compactContext msgs key o) key o'
          = compactContext msgs key o) ∧
      compactContext (compactContext msgs none o) none o'
        = compactContext msgs none o := by
  intro msgs key o o'
  refine ⟨fun h => compactContext_under msgs key o h, ?_, ?_, ?_⟩
  · by_cases h : countContextChars msgs ≤ MAX_CONTEXT_CHARS
    · rw [compactContext_under msgs key o h]
      exact Or.inl h
    · have hover : MAX_CONTEXT_CHARS < countContextChars msgs := by omega
      have hne : msgs ≠ [] := by
        intro hnil
        rw [hnil, countContextChars_nil] at hover
        omega
      obtain ⟨m, rest, hmr⟩ := List.exists_cons_of_ne_nil hne
      subst hmr
      cases key with
      | none =>
        rw [compactContext_over_none _ _ hover]
        exact trimToLimit_under_or_single m rest
      | some k =>
        cases o with
        | failed e =>
          rw [compactContext_over_failed _ _ _ hover]
          exact trimToLimit_under_or_single m rest
        | ok s =>
          rw [compactContext_over_ok _ _ _ hover]
          exact Or.inr rfl
  · intro h
    exact compactContext_under _ key o' h
  · by_cases h : countContextChars msgs ≤ MAX_CONTEXT_CHARS
    · rw [compactContext_under msgs none o h, compactContext_under msgs none o' h]
    · have hover : MAX_CONTEXT_CHARS < countContextChars msgs := by omega
      have hne : msgs ≠ [] := by
        intro hnil
        rw [hnil, countContextChars_nil] at hover
        omega
      obtain ⟨m, rest, hmr⟩ := List.exists_cons_of_ne_nil hne
      subst hmr
      rw [compactContext_over_none _ _ hover]
      by_cases h2 : countContextChars (trimToLimit (m :: rest)) ≤ MAX_CONTEXT_CHARS
      · exact compactContext_under _ none o' h2
      · have hover2 : MAX_CONTEXT_CHARS <
            countContextChars (trimToLimit (m :: rest)) := by omega
        rw [compactContext_over_none _ _ hover2]
        exact trimToLimit_idem (m :: rest)

/-- C4 witness: the amended theorem applied at concrete inputs — an
under-budget one-message history is returned unchanged by the first
call, and the second call on the result is also a no-op. -/
theorem compactContext_budget_spec_witness :
    compactContext [smallMsg] (some "key") (.ok "sum") = [smallMsg] ∧
    compactContext (compactContext [bigMsg, smallMsg] none (.failed "e")) none
        (.failed "e") = compactContext [bigMsg, smallMsg] none (.failed "e") := by
  constructor
  · exact (compactContext_budget_spec [smallMsg] (some "key") (.ok "sum") (.ok "sum")).1
      (by rw [countContextChars_smallMsg]; norm_num [MAX_CONTEXT_CHARS])
  · exact (compactContext_budget_spec [bigMsg, smallMsg] none (.failed "e")
      (.failed "e")).2.2.2

/-- C5: whenever compaction triggers on an over-budget history and the
summarization call succeeds, the entire stored history is replaced by
exactly one message, whose text is the fixed marker followed by the
summary — no prior message and no tail is kept. -/
theorem compaction_replaces_history :
    ∀ (msgs : List AgentMessage) (k s : String),
      MAX_CONTEXT_CHARS < countContextChars msgs →
        compactContext msgs (some k) (.ok s) = [summaryMessage s] ∧
        summaryMessage s
          = { role := "user", content := .str (COMPACTION_CODE ++ "\n\n" ++ s) } ∧
        (compactContext msgs (some k) (.ok s)).length = 1 := by
  intro msgs k s h
  refine ⟨compactContext_over_ok msgs k s h, rfl, ?_⟩
  rw [compactContext_over_ok msgs k s h]
  rfl

/-- C5 witness: the theorem applied to a concrete over-budget history and
a concrete summary. -/
theorem compaction_replaces_history_witness :
    compactContext [bigMsg] (some "key") (.ok "all about a")
      = [summaryMessage "all about a"] :=
  (compaction_replaces_history [bigMsg] "key" "all about a"
    (by rw [countContextChars_bigMsg]; norm_num [MAX_CONTEXT_CHARS])).1

/-- C6: the trim fallback returns a suffix of the history obtained by
dropping oldest messages, stopping as soon as the result is under budget
or exactly one message remains (every strictly longer suffix is over
budget with more than one message); it never has more messages or more
measured characters than its input; when summarization fails or no
auxiliary model is configured, `compactContext` on an over-budget
history is exactly this trim; and repeated calls under permanently
failing summarization converge — the second call returns the first
call's result unchanged. -/
theorem trim_fallback_spec :
    (∀ msgs : List AgentMessage, ∃ pre, msgs = pre ++ trimToLimit msgs) ∧
    (∀ (m : AgentMessage) (rest : List AgentMessage),
      countContextChars (trimToLimit (m :: rest)) ≤ MAX_CONTEXT_CHARS ∨
        (trimToLimit (m :: rest)).length = 1) ∧
    (∀ msgs : List AgentMessage,
      (trimToLimit msgs).length ≤ msgs.length ∧
        countContextChars (trimToLimit msgs) ≤ countContextChars msgs) ∧
    (∀ msgs s : List AgentMessage,
      (∃ p, msgs = p ++ s) → (∃ q, s = q ++ trimToLimit msgs) →
        s ≠ trimToLimit msgs →
        MAX_CONTEXT_CHARS < countContextChars s ∧ 1 < s.length) ∧
    (∀ (msgs : List AgentMessage) (e k : String),
      MAX_CONTEXT_CHARS < countContextChars msgs →
        compactContext msgs none (.failed e) = trimToLimit msgs ∧
        compactContext msgs (some k) (.failed e) = trimToLimit msgs) ∧
    (∀ (msgs : List AgentMessage) (e e' k : String),
      compactContext (compactContext msgs (some k) (.failed e)) (some k)
          (.failed e') = compactContext msgs (some k) (.failed e)) := by
  refine ⟨trimToLimit_suffix, trimToLimit_under_or_single, trimToLimit_le,
    trimToLimit_minimal, ?_, ?_⟩
  · intro msgs e k h
    exact ⟨compactContext_over_none msgs _ h, compactContext_over_failed msgs k e h⟩
  · intro msgs e e' k
    by_cases h : countContextChars msgs ≤ MAX_CONTEXT_CHARS
    · rw [compactContext_under msgs _ _ h, compactContext_under msgs _ _ h]
    · have hover : MAX_CONTEXT_CHARS < countContextChars msgs := by omega
      have hne : msgs ≠ [] := by
        intro hnil
        rw [hnil, countContextChars_nil] at hover
        omega
      obtain ⟨m, rest, hmr⟩ := List.exists_cons_of_ne_nil hne
      subst hmr
      rw [compactContext_over_failed _ _ _ hover]
      by_cases h2 : countContextChars (trimToLimit (m :: rest)) ≤ MAX_CONTEXT_CHARS
      · exact compactContext_under _ _ _ h2
      · have hover2 : MAX_CONTEXT_CHARS <
            countContextChars (trimToLimit (m :: rest)) := by omega
        rw [compactContext_over_failed _ _ _ hover2]
        exact trimToLimit_idem (m :: rest)

/-- C6 witness: the trim fallback applied to a concrete over-budget
two-message history drops the oldest message and lands under budget. -/
theorem trim_fallback_spec_witness :
    compactContext [bigMsg, smallMsg] none (.failed "boom")
        = trimToLimit [bigMsg, smallMsg] ∧
    trimToLimit [bigMsg, smallMsg] = [smallMsg] ∧
    countContextChars [smallMsg] ≤ MAX_CONTEXT_CHARS := by
  refine ⟨(trim_fallback_spec.2.2.2.2.1 [bigMsg, smallMsg] "boom" "k" ?_).1,
    trimToLimit_big_small, by rw [countContextChars_smallMsg]; norm_num [MAX_CONTEXT_CHARS]⟩
  rw [countContextChars_big_small]
  norm_num [MAX_CONTEXT_CHARS]

/-! ## Lemmas: session runtime -/

/-- Inductive invariant of the drain loop: at most one Engine Adapter call
is in flight, and when `busy` is down nothing is in flight and the queue
is empty (the drain loop empties it before resetting `busy`). -/
def BoxInv (s : BoxState) : Prop :=
  s.active.length ≤ 1 ∧ (s.busy = false → s.active = [] ∧ s.queue = [])

/-- Everything that arrived, in order: executed turns, then the in-flight
turn, then the queue. -/
def accounted (s : BoxState) : List Req := s.executed ++ s.active ++ s.queue

lemma promptStep_inv (s : BoxState) (r : Req) (h : BoxInv s) :
    BoxInv (promptStep s r) := by
  obtain ⟨hlen, hidle⟩ := h
  unfold promptStep
  cases hb : s.busy with
  | true =>
    simp only [hb, if_true]
    exact ⟨hlen, by simp⟩
  | false =>
    obtain ⟨ha, hq⟩ := hidle hb
    simp only [hb, Bool.false_eq_true, if_false, hq, ha, List.nil_append]
    exact ⟨by simp, by simp⟩

lemma finishStep_inv (s : BoxState) (o : TurnOutcome) (h : BoxInv s) :
    BoxInv (finishStep s o) := by
  obtain ⟨hlen, hidle⟩ := h
  unfold finishStep
  cases ha : s.active with
  | nil => exact ⟨hlen, hidle⟩
  | cons a rest =>
    have hrest : rest = [] := by
      rw [ha] at hlen
      simp only [List.length_cons] at hlen
      exact List.length_eq_zero.mp (by omega)
    subst hrest
    cases hq : s.queue with
    | nil => exact ⟨by simp, fun _ => ⟨rfl, rfl⟩⟩
    | cons hd tl => exact ⟨by simp, by simp⟩

lemma promptStep_accounted (s : BoxState) (r : Req) :
    accounted (promptStep s r) = accounted s ++ [r] := by
  unfold promptStep accounted
  cases hb : s.busy with
  | true => simp
  | false =>
    cases hq : s.queue ++ [r] with
    | nil => simp at hq
    | cons h t =>
      simp only [hb, Bool.false_eq_true, if_false]
      simp [← hq]

lemma finishStep_accounted (s : BoxState) (o : TurnOutcome) :
    accounted (finishStep s o) = accounted s := by
  unfold finishStep accounted
  cases ha : s.active with
  | nil => simp [ha]
  | cons a rest =>
    cases hq : s.queue with
    | nil => simp [ha, hq]
    | cons h t => simp [ha, hq]

lemma step_inv (s : BoxState) (e : RuntimeEvent) (h : BoxInv s) :
    BoxInv (step s e) := by
  cases e with
  | arrive r => exact promptStep_inv s r h
  | finish o => exact finishStep_inv s o h

lemma step_accounted (s : BoxState) (e : RuntimeEvent) :
    accounted (step s e) = accounted s ++
      (match e with | .arrive r => [r] | .finish _ => []) := by
  cases e with
  | arrive r => exact promptStep_accounted s r
  | finish o => simp [step, finishStep_accounted]

lemma foldl_inv_accounted (tr : List RuntimeEvent) :
    ∀ s : BoxState, BoxInv s →
      BoxInv (tr.foldl step s) ∧
        accounted (tr.foldl step s) = accounted s ++ arrivals tr := by
  induction tr with
  | nil => intro s h; exact ⟨h, by simp [arrivals]⟩
  | cons e rest ih =>
    intro s h
    obtain ⟨h1, h2⟩ := ih (step s e) (step_inv s e h)
    refine ⟨h1, ?_⟩
    rw [List.foldl_cons] at *
    rw [h2, step_accounted]
    cases e with
    | arrive r => simp [arrivals]
    | finish o => simp [arrivals]

/-! ## Claim theorems: session runtime -/

/-- C1: for every interleaving of `prompt()` arrivals and turn
completions, the runtime never has two Engine Adapter calls in flight at
once, and the completed turns, the in-flight turn and the queue together
are exactly the arrivals in arrival order — so turns execute one at a
time in exactly arrival order, with no reordering across sources. -/
theorem session_fifo_single_flight :
    ∀ tr : List RuntimeEvent,
      (run tr).active.length ≤ 1 ∧
      (run tr).executed ++ (run tr).active ++ (run tr).queue = arrivals tr ∧
      ∃ pending, arrivals tr = (run tr).executed ++ pending := by
  intro tr
  have hinit : BoxInv initState := ⟨by simp [initState], by simp [initState]⟩
  obtain ⟨⟨hlen, -⟩, hacc⟩ := foldl_inv_accounted tr initState hinit
  have hacc' : accounted (run tr) = arrivals tr := by
    rw [run, hacc]
    simp [accounted, initState]
  refine ⟨hlen, hacc', ⟨(run tr).active ++ (run tr).queue, ?_⟩⟩
  rw [← hacc']
  simp [accounted]

/-- C2 counterexample: in the legacy `Rex` runtime, after two requests
arrive and the first turn's Engine Adapter call rejects, no error event
has been delivered to subscribers, the busy flag is still set, and the
second request sits unprocessed in the queue — the claim fails on
`Rex._runPrompt` / `Rex._drainQueue`, which have no catch at the turn
boundary. -/
theorem rex_crash_cex :
    (rexRun [.arrive reqA, .arrive reqB, .finish (.failed "boom")]).events = [] ∧
    (rexRun [.arrive reqA, .arrive reqB, .finish (.failed "boom")]).busy = true ∧
    (rexRun [.arrive reqA, .arrive reqB, .finish (.failed "boom")]).queue = [reqB] ∧
    (rexRun [.arrive reqA, .arrive reqB, .finish (.failed "boom")]).executed = [] ∧
    (rexRun [.arrive reqA, .arrive reqB, .finish (.failed "boom")]).crashed = true := by
  refine ⟨rfl, rfl, rfl, rfl, rfl⟩

/-- C2 amended: in the subprocess `AgentBox` runtime, whose `_runPrompt`
wraps the Engine Adapter stream in try/catch, a failing turn is caught
at the turn boundary and converted into an error event delivered to
subscribers; the drain loop survives: the turn is recorded, the busy
flag is cleared when the queue is empty, and otherwise the next queued
request's Engine Adapter call is started.  (In the legacy Rex and
pi-agent-core runtimes the rejection instead escapes the drain loop,
leaving busy set and the queue wedged.) -/
theorem engine_failure_recovery :
    ∀ (s : BoxState) (m : String) (a : Req) (rest : List Req),
      s.active = a :: rest →
        (Emitted.errorEvent m) ∈ (finishStep s (.failed m)).events ∧
        (finishStep s (.failed m)).executed = s.executed ++ [a] ∧
        (s.queue = [] → (finishStep s (.failed m)).busy = false) ∧
        (∀ h t, s.queue = h :: t →
          (finishStep s (.failed m)).busy = true ∧
          (finishStep s (.failed m)).active = rest ++ [h] ∧
          (finishStep s (.failed m)).queue = t) := by
  intro s m a rest ha
  unfold finishStep
  rw [ha]
  cases hq : s.queue with
  | nil =>
    refine ⟨by simp, by simp, fun _ => rfl, ?_⟩
    intro h t hcontra
    simp [hq] at hcontra
  | cons h t =>
    refine ⟨by simp, by simp, fun hcontra => by simp at hcontra, ?_⟩
    intro h' t' heq
    cases heq
    exact ⟨rfl, rfl, rfl⟩

/-- C2 witness: the recovery theorem applied at a concrete state with one
failing in-flight turn and one queued request: the error event is
delivered, the turn is recorded, and the queued request is started. -/
theorem engine_failure_recovery_witness :
    (Emitted.errorEvent "boom")
        ∈ (finishStep ⟨[reqB], true, [reqA], [], []⟩ (.failed "boom")).events ∧
    (finishStep ⟨[reqB], true, [reqA], [], []⟩ (.failed "boom")).executed = [reqA] ∧
    (finishStep ⟨[reqB], true, [reqA], [], []⟩ (.failed "boom")).busy = true ∧
    (finishStep ⟨[reqB], true, [reqA], [], []⟩ (.failed "boom")).active = [reqB] := by
  have h := engine_failure_recovery ⟨[reqB], true, [reqA], [], []⟩ "boom" reqA [] rfl
  obtain ⟨h1, h2, -, h4⟩ := h
  obtain ⟨hb, hact, -⟩ := h4 reqB [] rfl
  exact ⟨h1, by simpa using h2, hb, by simpa using hact⟩

/-! ## Claim theorems: persistence -/

/-- C7: the persisted record round-trips exactly — for every continuation
token, `save` then `load` returns that token unchanged, and `clear` then
`load` returns "no checkpoint"; the same holds for the message-list
checkpoint variant for every non-empty message list read back within the
staleness window. -/
theorem checkpoint_roundtrip :
    (∀ (token : String) (now : Nat) (fs : FileState SessionData),
      loadSession (saveSession token now fs) = some token) ∧
    (∀ fs : FileState SessionData, loadSession (clearSession fs) = none) ∧
    (∀ (msgs : List AgentMessage) (now later : Nat) (fs : FileState Checkpoint),
      msgs ≠ [] → later - now ≤ MAX_CHECKPOINT_AGE_MS →
        (loadCheckpoint later (saveCheckpoint msgs now fs)).1 = some msgs) ∧
    (∀ (now : Nat) (fs : FileState Checkpoint),
      (loadCheckpoint now (clearCheckpoint fs)).1 = none) := by
  refine ⟨fun _ _ _ => rfl, fun _ => rfl, ?_, fun _ _ => rfl⟩
  intro msgs now later fs hne hfresh
  have hlen : ¬ msgs.length = 0 := by
    intro h
    exact hne (List.length_eq_zero.mp h)
  simp only [saveCheckpoint, if_neg hlen, loadCheckpoint]
  rw [if_neg (by omega)]

/-- C7 witness: a concrete token and a concrete one-message checkpoint
round-trip through save/load, and clear/load yields nothing. -/
theorem checkpoint_roundtrip_witness :
    loadSession (saveSession "sess-42" 1000 .missing) = some "sess-42" ∧
    loadSession (clearSession (saveSession "sess-42" 1000 .missing)) = none ∧
    (loadCheckpoint 2000 (saveCheckpoint [smallMsg] 1000 .missing)).1
      = some [smallMsg] := by
  refine ⟨checkpoint_roundtrip.1 "sess-42" 1000 .missing,
    checkpoint_roundtrip.2.1 _, ?_⟩
  exact checkpoint_roundtrip.2.2.1 [smallMsg] 1000 2000 .missing (by simp) (by decide)

/-- C10: loading persisted session state never fails at the interface —
for a missing file, an unreadable file, or invalid JSON, both
`loadSession` and `loadCheckpoint` return "no checkpoint" (`none`)
instead of raising, so a corrupt or absent checkpoint yields a fresh
session. -/
theorem load_never_throws :
    loadSession .missing = none ∧
    loadSession .unreadable = none ∧
    (∀ raw, loadSession (.invalidJson raw) = none) ∧
    (∀ now, (loadCheckpoint now .missing).1 = none) ∧
    (∀ now, (loadCheckpoint now .unreadable).1 = none) ∧
    (∀ now raw, (loadCheckpoint now (.invalidJson raw)).1 = none) :=
  ⟨rfl, rfl, fun _ => rfl, fun _ => rfl, fun _ => rfl, fun _ _ => rfl⟩

/-! ## Lemmas: watchdog -/

lemma watchdogFires_nil (timeout t0 : Nat) : watchdogFires timeout t0 [] = 0 := rfl

lemma watchdogFireTimes_cons (timeout last t : Nat) (rest : List Nat) :
    watchdogFireTimes timeout last (t :: rest)
      = (if last + timeout < t then [last + timeout] else []) ++
          watchdogFireTimes timeout t rest := rfl

lemma watchdogFires_cons (timeout last t : Nat) (rest : List Nat) :
    watchdogFires timeout last (t :: rest)
      = (if last + timeout < t then 1 else 0) + watchdogFires timeout t rest := by
  unfold watchdogFires
  rw [watchdogFireTimes_cons]
  by_cases h : last + timeout < t
  · rw [if_pos h, if_pos h]
    simp only [List.singleton_append, List.length_cons]
    omega
  · rw [if_neg h, if_neg h]
    simp

lemma gapViolations_cons (timeout t0 t : Nat) (rest : List Nat) :
    gapViolations timeout t0 (t :: rest)
      = (if t0 + timeout < t then 1 else 0) + gapViolations timeout t rest := by
  unfold gapViolations
  simp only [List.zip_cons_cons, List.countP_cons]
  by_cases h : t0 + timeout < t
  · rw [if_pos h]
    simp [h]
    omega
  · rw [if_neg h]
    simp [h]

lemma watchdogFires_eq_gapViolations (timeout : Nat) :
    ∀ (t0 : Nat) (ts : List Nat),
      watchdogFires timeout t0 ts = gapViolations timeout t0 ts := by
  intro t0 ts
  induction ts generalizing t0 with
  | nil => rfl
  | cons t rest ih => rw [watchdogFires_cons, gapViolations_cons, ih]

/-! ## Claim theorems: watchdog -/

/-- C8 counterexample: in the subprocess runtime, a turn that starts at 0
and whose only event arrives after a 700000 ms silent gap (exceeding the
600000 ms timeout) fires the watchdog exactly once — but the in-flight
turn is NOT aborted: the handler only emits a timeout error event
(`abort()` is unimplemented for the subprocess and is not called), so
the claim's "aborts the in-flight turn" fails. -/
theorem watchdog_no_abort_cex :
    (runWatchdogSdk 0 [700000]).timeoutEvents = 1 ∧
    (runWatchdogSdk 0 [700000]).aborted = false ∧
    INACTIVITY_TIMEOUT_MS < 700000 := by
  refine ⟨?_, rfl, by norm_num [INACTIVITY_TIMEOUT_MS]⟩
  simp only [runWatchdogSdk]
  rw [watchdogFires_cons, watchdogFires_nil, if_pos (by norm_num [INACTIVITY_TIMEOUT_MS])]

/-- C8 amended: the watchdog timer is armed at turn start and reset on
every event from the Engine Adapter; a sequence of events each spaced
less than the timeout apart never triggers a timeout regardless of the
total turn duration; the number of firings equals exactly the number of
silent gaps exceeding the timeout (so one such gap triggers exactly one
timeout); in the subprocess runtime each firing surfaces one timeout
error event to subscribers but does not abort the in-flight turn. -/
theorem watchdog_reset_semantics :
    ∀ (t0 : Nat) (ts : List Nat),
      (List.Chain (fun a b => b < a + INACTIVITY_TIMEOUT_MS) t0 ts →
        watchdogFires INACTIVITY_TIMEOUT_MS t0 ts = 0) ∧
      watchdogFires INACTIVITY_TIMEOUT_MS t0 ts
        = gapViolations INACTIVITY_TIMEOUT_MS t0 ts ∧
      (gapViolations INACTIVITY_TIMEOUT_MS t0 ts = 1 →
        watchdogFires INACTIVITY_TIMEOUT_MS t0 ts = 1) ∧
      (runWatchdogSdk t0 ts).timeoutEvents = watchdogFires INACTIVITY_TIMEOUT_MS t0 ts ∧
      (runWatchdogSdk t0 ts).aborted = false := by
  intro t0 ts
  refine ⟨?_, watchdogFires_eq_gapViolations _ t0 ts, ?_, rfl, rfl⟩
  · intro hchain
    induction ts generalizing t0 with
    | nil => rfl
    | cons t rest ih =>
      rcases hchain with _ | ⟨hlt, hchain'⟩
      rw [watchdogFires_cons, if_neg (by omega), ih t hchain']
  · intro h
    rw [watchdogFires_eq_gapViolations _ t0 ts, h]

/-- C8 witness: the reset-semantics theorem applied to a concrete
long-running turn — ten events spaced 500000 ms apart (each under the
600000 ms timeout, total far beyond it) fire no timeout, and a single
700000 ms gap fires exactly one. -/
theorem watchdog_reset_semantics_witness :
    watchdogFires INACTIVITY_TIMEOUT_MS 0
        [500000, 1000000, 1500000, 2000000, 2500000, 3000000,
         3500000, 4000000, 4500000, 5000000] = 0 ∧
    watchdogFires INACTIVITY_TIMEOUT_MS 1000 [701000] = 1 := by
  constructor
  · exact (watchdog_reset_semantics 0
      [500000, 1000000, 1500000, 2000000, 2500000, 3000000,
       3500000, 4000000, 4500000, 5000000]).1 (by
        repeat constructor <;> norm_num [INACTIVITY_TIMEOUT_MS])
  · exact (watchdog_reset_semantics 1000 [701000]).2.2.1 (by decide)

/-! ## Lemmas: message chunking -/

lemma lastNewlineLe_none : ∀ (cs : List Char) (k : Nat),
    lastNewlineLe cs k = none → ∀ j, j ≤ k → cs[j]? ≠ some '\n' := by
  intro cs
  induction cs with
  | nil => intro k _ j _; simp
  | cons c rest ih =>
    intro k
    cases k with
    | zero =>
      intro h j hj
      have hj0 : j = 0 := by omega
      subst hj0
      by_cases hc : c = '\n'
      · simp [lastNewlineLe, hc] at h
      · simpa using hc
    | succ k' =>
      intro h j hj
      cases hrec : lastNewlineLe rest k' with
      | some i => simp [lastNewlineLe, hrec] at h
      | none =>
        have hc : ¬ c = '\n' := by
          intro hc
          simp [lastNewlineLe, hrec, hc] at h
        cases j with
        | zero => simpa using hc
        | succ j' =>
          have := ih k' hrec j' (by omega)
          simpa using this

lemma lastNewlineLe_some : ∀ (cs : List Char) (k i : Nat),
    lastNewlineLe cs k = some i →
      i ≤ k ∧ cs[i]? = some '\n' ∧ ∀ j, i < j → j ≤ k → cs[j]? ≠ some '\n' := by
  intro cs
  induction cs with
  | nil => intro k i h; simp [lastNewlineLe] at h
  | cons c rest ih =>
    intro k i h
    cases k with
    | zero =>
      by_cases hc : c = '\n'
      · simp only [lastNewlineLe, if_pos hc] at h
        have hi : i = 0 := by injection h with h'; omega
        subst hi
        exact ⟨le_refl 0, by simpa using hc, fun j hj1 hj2 => by omega⟩
      · simp [lastNewlineLe, hc] at h
    | succ k' =>
      cases hrec : lastNewlineLe rest k' with
      | some i' =>
        have heq : i = i' + 1 := by
          simp only [lastNewlineLe, hrec] at h
          injection h with h'
          omega
        obtain ⟨h1, h2, h3⟩ := ih k' i' hrec
        subst heq
        refine ⟨by omega, by simpa using h2, ?_⟩
        intro j hji hjk
        cases j with
        | zero => omega
        | succ j' =>
          have := h3 j' (by omega) (by omega)
          simpa using this
      | none =>
        by_cases hc : c = '\n'
        · have heq : i = 0 := by
            simp only [lastNewlineLe, hrec, if_pos hc] at h
            injection h with h'
            omega
          subst heq
          refine ⟨by omega, by simpa using hc, ?_⟩
          intro j hj0 hjk
          cases j with
          | zero => omega
          | succ j' =>
            have := lastNewlineLe_none rest k' hrec j' (by omega)
            simpa using this
        · simp [lastNewlineLe, hrec, hc] at h

lemma trimStart_length_le : ∀ l : List Char, (trimStart l).length ≤ l.length := by
  intro l
  induction l with
  | nil => simp [trimStart]
  | cons c rest ih =>
    by_cases h : isJsSpace c
    · rw [trimStart, if_pos h]
      simp only [List.length_cons]
      omega
    · rw [trimStart, if_neg h]

lemma splitPos_eq_none (r : List Char) (L : Nat) (h : lastNewlineLe r L = none) :
    splitPos r L = L := by
  unfold splitPos
  rw [h]

lemma splitPos_eq_some (r : List Char) (L i : Nat) (h : lastNewlineLe r L = some i) :
    splitPos r L = if 2 * i < L then L else i := by
  unfold splitPos
  rw [h]

lemma splitPos_pos (r : List Char) (L : Nat) (h0 : 0 < L) : 1 ≤ splitPos r L := by
  cases hl : lastNewlineLe r L with
  | none => rw [splitPos_eq_none r L hl]; omega
  | some i =>
    rw [splitPos_eq_some r L i hl]
    by_cases h2 : 2 * i < L
    · rw [if_pos h2]; omega
    · rw [if_neg h2]; omega

lemma splitPos_le (r : List Char) (L : Nat) : splitPos r L ≤ L := by
  cases hl : lastNewlineLe r L with
  | none => rw [splitPos_eq_none r L hl]
  | some i =>
    have hi := (lastNewlineLe_some r L i hl).1
    rw [splitPos_eq_some r L i hl]
    by_cases h2 : 2 * i < L
    · rw [if_pos h2]
    · rw [if_neg h2]; exact hi

lemma splitOnce_fst_le (r : List Char) (L : Nat) : (splitOnce r L).1.length ≤ L := by
  simp only [splitOnce]
  rw [List.length_take]
  exact le_trans (Nat.min_le_left _ _) (splitPos_le r L)

lemma splitOnce_snd_lt (r : List Char) (L : Nat) (h0 : 0 < L) (h : L < r.length) :
    (splitOnce r L).2.length < r.length := by
  simp only [splitOnce]
  have h1 := splitPos_pos r L h0
  calc (trimStart (r.drop (splitPos r L))).length
      ≤ (r.drop (splitPos r L)).length := trimStart_length_le _
    _ = r.length - splitPos r L := by rw [List.length_drop]
    _ < r.length := by omega

lemma splitLoop_fuel (L : Nat) (h0 : 0 < L) :
    ∀ (f g : Nat) (r : List Char), r.length ≤ f → r.length ≤ g →
      splitLoop L f r = splitLoop L g r := by
  intro f
  induction f with
  | zero =>
    intro g r hf hg
    have : r = [] := List.length_eq_zero.mp (by omega)
    subst this
    cases g <;> rfl
  | succ f' ih =>
    intro g r hf hg
    cases r with
    | nil => cases g <;> rfl
    | cons c cs =>
      cases g with
      | zero => simp at hg
      | succ g' =>
        simp only [splitLoop]
        by_cases hle : (c :: cs).length ≤ L
        · rw [if_pos hle, if_pos hle]
        · rw [if_neg hle, if_neg hle]
          congr 1
          have hlt := splitOnce_snd_lt (c :: cs) L h0 (by omega)
          exact ih g' _ (by omega) (by omega)

lemma splitChunks_over (L : Nat) (h0 : 0 < L) (r : List Char) (h : L < r.length) :
    splitChunks L r = (splitOnce r L).1 :: splitChunks L (splitOnce r L).2 := by
  unfold splitChunks
  cases r with
  | nil => simp at h
  | cons c cs =>
    have hlen : (c :: cs).length = cs.length + 1 := rfl
    rw [hlen]
    simp only [splitLoop]
    rw [if_neg (by rw [hlen] at h ⊢; omega)]
    congr 1
    have hlt := splitOnce_snd_lt (c :: cs) L h0 h
    exact splitLoop_fuel L h0 cs.length _ _ (by rw [hlen] at hlt; omega) (le_refl _)

lemma splitLoop_chunk_le (L : Nat) :
    ∀ (f : Nat) (r c : List Char), c ∈ splitLoop L f r → c.length ≤ L := by
  intro f
  induction f with
  | zero => intro r c h; simp [splitLoop] at h
  | succ f' ih =>
    intro r c h
    cases r with
    | nil => simp [splitLoop] at h
    | cons x xs =>
      simp only [splitLoop] at h
      by_cases hle : (x :: xs).length ≤ L
      · rw [if_pos hle] at h
        simp at h
        subst h
        exact hle
      · rw [if_neg hle] at h
        simp at h
        rcases h with h | h
        · subst h
          exact splitOnce_fst_le _ _
        · exact ih _ _ h

lemma lastNewlineLe_replicate_b : ∀ n k : Nat,
    lastNewlineLe (List.replicate n 'b') k = none := by
  intro n
  induction n with
  | zero => intro k; rfl
  | succ n' ih =>
    intro k
    rw [List.replicate_succ]
    cases k with
    | zero =>
      show (if 'b' = '\n' then some 0 else none) = none
      rw [if_neg (by decide)]
    | succ k' =>
      show (match lastNewlineLe (List.replicate n' 'b') k' with
        | some i => some (i + 1)
        | none => if 'b' = '\n' then some 0 else none) = none
      rw [ih k']
      exact if_neg (by decide)

lemma lastNewlineLe_cons_succ (c : Char) (rest : List Char) (k : Nat) :
    lastNewlineLe (c :: rest) (k + 1)
      = match lastNewlineLe rest k with
        | some i => some (i + 1)
        | none => if c = '\n' then some 0 else none := rfl

lemma lastNewlineLe_aab (n k : Nat) :
    lastNewlineLe ('a' :: '\n' :: List.replicate n 'b') (k + 1 + 1) = some 1 := by
  rw [lastNewlineLe_cons_succ, lastNewlineLe_cons_succ, lastNewlineLe_replicate_b n k]
  rfl

lemma lastNewlineLe_cexText : lastNewlineLe cexText 4096 = some 1 := by
  show lastNewlineLe ('a' :: '\n' :: List.replicate 4095 'b') 4096 = some 1
  rw [show (4096 : Nat) = 4094 + 1 + 1 by norm_num]
  exact lastNewlineLe_aab 4095 4094

lemma splitPos_cexText : splitPos cexText 4096 = 4096 := by
  rw [splitPos_eq_some cexText 4096 1 lastNewlineLe_cexText]
  exact if_pos (by norm_num)

lemma getElem_replicate_b (n k : Nat) (h : k < n) :
    (List.replicate n 'b')[k]? = some 'b' := by
  simp [List.getElem?_replicate, h]

/-! ## Claim theorems: message chunking -/

/-- C9 counterexample: for the 4097-character text whose only newline sits
at index 1 (inside the 4096-character window), `splitMessage` cuts its
first chunk at exactly position 4096, in the middle of the run of `b`s
(the characters at positions 4095 and 4096, on both sides of the cut,
are both `b`), even though a newline was available within the window —
the chunk boundary does not fall on a line boundary although one was
avoidable. -/
theorem split_midline_cex :
    4096 < cexText.length ∧
    cexText[1]? = some '\n' ∧
    splitPos cexText 4096 = 4096 ∧
    splitMessage cexText 4096
      = cexText.take 4096 :: splitChunks 4096 (splitOnce cexText 4096).2 ∧
    cexText[4095]? = some 'b' ∧
    cexText[4096]? = some 'b' := by
  have hlen : cexText.length = 4097 := by
    show ('a' :: '\n' :: List.replicate 4095 'b').length = 4097
    rw [List.length_cons, List.length_cons, List.length_replicate]
  have hnl : cexText[1]? = some '\n' := by
    simp only [cexText]
    rw [show (1 : Nat) = 0 + 1 by norm_num]
    rw [List.getElem?_cons_succ, List.getElem?_cons_zero]
  refine ⟨by omega, hnl, splitPos_cexText, ?_, ?_, ?_⟩
  · rw [splitMessage, if_neg (by omega)]
    rw [splitChunks_over 4096 (by norm_num) cexText (by omega)]
    have h1 : (splitOnce cexText 4096).1 = cexText.take 4096 := by
      simp only [splitOnce]
      rw [splitPos_cexText]
    rw [h1]
  · simp only [cexText]
    rw [show (4095 : Nat) = 4093 + 1 + 1 by norm_num]
    rw [List.getElem?_cons_succ, List.getElem?_cons_succ]
    exact getElem_replicate_b 4095 4093 (by norm_num)
  · simp only [cexText]
    rw [show (4096 : Nat) = 4094 + 1 + 1 by norm_num]
    rw [List.getElem?_cons_succ, List.getElem?_cons_succ]
    exact getElem_replicate_b 4095 4094 (by norm_num)

/-- C9 amended: every chunk is at most 4096 characters and a text at or
under the ceiling is returned as the single chunk `[text]`; for an
over-ceiling text, each step cuts at the position `splitPos`, which is
the last newline at or before 4096 whenever that newline lies at or
beyond index 2048 (half the window), and otherwise is exactly 4096 —
so a chunk boundary falls on the newline nearest the limit only when
one is available in the upper half of the window, and the text is split
mid-line when the nearest newline lies in the lower half. -/
theorem splitMessage_spec :
    (∀ text : List Char, text.length ≤ 4096 → splitMessage text 4096 = [text]) ∧
    (∀ text c : List Char, c ∈ splitMessage text 4096 → c.length ≤ 4096) ∧
    (∀ r : List Char, 4096 < r.length →
      splitMessage r 4096
        = r.take (splitPos r 4096) :: splitChunks 4096 (splitOnce r 4096).2 ∧
      ((∃ i, 2048 ≤ i ∧ i ≤ 4096 ∧ splitPos r 4096 = i ∧ r[i]? = some '\n' ∧
          ∀ j, i < j → j ≤ 4096 → r[j]? ≠ some '\n') ∨
        (splitPos r 4096 = 4096 ∧ ∀ j, 2048 ≤ j → j ≤ 4096 → r[j]? ≠ some '\n'))) := by
  refine ⟨?_, ?_, ?_⟩
  · intro text h
    rw [splitMessage, if_pos h]
  · intro text c hc
    rw [splitMessage] at hc
    by_cases h : text.length ≤ 4096
    · rw [if_pos h] at hc
      simp at hc
      subst hc
      exact h
    · rw [if_neg h] at hc
      unfold splitChunks at hc
      exact splitLoop_chunk_le 4096 _ _ _ hc
  · intro r h
    constructor
    · rw [splitMessage, if_neg (by omega)]
      rw [splitChunks_over 4096 (by norm_num) r h]
      rfl
    · cases hl : lastNewlineLe r 4096 with
      | none =>
        right
        refine ⟨splitPos_eq_none r 4096 hl, ?_⟩
        intro j _ h2
        exact lastNewlineLe_none r 4096 hl j h2
      | some i =>
        obtain ⟨hik, hin, hmax⟩ := lastNewlineLe_some r 4096 i hl
        by_cases h2 : 2 * i < 4096
        · right
          refine ⟨by rw [splitPos_eq_some r 4096 i hl, if_pos h2], ?_⟩
          intro j hj1 hj2
          exact hmax j (by omega) hj2
        · exact Or.inl ⟨i, by omega, hik,
            by rw [splitPos_eq_some r 4096 i hl, if_neg h2], hin, hmax⟩

/-- C9 witness: the amended theorem applied at concrete inputs — a short
text comes back as a single chunk that fits the ceiling, and a 4201-
character text with a newline at index 3000 (the upper half of the
window) takes the unfold step with its cut at `splitPos`. -/
theorem splitMessage_spec_witness :
    splitMessage ['h', 'i'] 4096 = [['h', 'i']] ∧
    (['h', 'i'] : List Char).length ≤ 4096 ∧
    splitMessage (List.replicate 3000 'x' ++ '\n' :: List.replicate 1200 'y') 4096
      = (List.replicate 3000 'x' ++ '\n' :: List.replicate 1200 'y').take
          (splitPos (List.replicate 3000 'x' ++ '\n' :: List.replicate 1200 'y') 4096)
        :: splitChunks 4096
            (splitOnce (List.replicate 3000 'x' ++ '\n' :: List.replicate 1200 'y') 4096).2 := by
  refine ⟨splitMessage_spec.1 ['h', 'i'] (by simp), ?_, ?_⟩
  · exact splitMessage_spec.2.1 ['h', 'i'] ['h', 'i'] (by decide)
  · exact (splitMessage_spec.2.2 (List.replicate 3000 'x' ++ '\n' :: List.replicate 1200 'y')
      (by rw [List.length_append, List.length_replicate, List.length_cons,
              List.length_replicate]; norm_num)).1

end Agentbox
